import Mathlib

/-!
# Verification of the op_rand commitment and transaction-builder core

Shallow embedding of the `op_rand` repository's commitment engine
(`crates/types/src/commitment.rs`), script templates
(`crates/transaction-builder/src/scripts.rs`) and transaction builder
(`crates/transaction-builder/src/transaction_builder.rs`).

Modelling conventions:
* secp256k1 is a cyclic group of prime order `curveOrder`; a public key
  `sk·G` is represented by its discrete logarithm, a natural number below
  `curveOrder`.  Scalar addition of secret keys (`SecretKey::add_tweak`)
  and point addition of public keys (`PublicKey::combine`) both become
  addition modulo `curveOrder`, failing on the zero result (invalid secret
  key / point at infinity), exactly as the `secp256k1` library does.
* Hashing (SHA256 over a serialized public key), serialization, sighash
  computation, DER encoding, txid computation and miniscript PSBT
  finalization are opaque library functions; they are collected in a
  `Crypto` record of function parameters, so every theorem holds for an
  arbitrary interpretation of these functions and witnesses instantiate
  them concretely.
* Rust `Amount` arithmetic panics on overflow (`checked_sub` /
  `checked_mul` + `expect`) and slice/`Witness` indexing panics when out
  of bounds; functions whose Rust bodies can panic return a `PResult`
  with a distinguished `panic` outcome, separate from `TransactionError`.
-/

namespace OpRand

/-! ## secp256k1 scalar model -/

/-- The order of the secp256k1 group
(0xFFFFFFFFFFFFFFFFFFFFFFFFFFFFFFFEBAAEDCE6AF48A03BBFD25E8CD0364141). -/
def curveOrder : ℕ :=
  115792089237316195423570985008687907852837564279074904382605163141518161494337

/-- Errors of the `secp256k1` library surfaced by the embedded code. -/
inductive SecpError where
  | invalidSecretKey
  | invalidPublicKey
  | invalidTweak
  deriving DecidableEq, Repr

/-- A secp256k1 public key, represented by its discrete logarithm
(the group is cyclic of order `curveOrder`). -/
abbrev SecpPublicKey := ℕ

/-- A secp256k1 secret key (a scalar; the library keeps it in
`[1, curveOrder)`, which theorems assume as a validity hypothesis). -/
abbrev SecpSecretKey := ℕ

/-- Validity predicate of the `secp256k1` library for secret keys. -/
def ValidSecretKey (sk : SecpSecretKey) : Prop :=
  0 < sk ∧ sk < curveOrder

instance (sk : SecpSecretKey) : Decidable (ValidSecretKey sk) :=
  inferInstanceAs (Decidable (_ ∧ _))

/-- `SecretKey::public_key`: the point `sk·G`, i.e. the class of `sk`
modulo the group order. -/
def pubkeyOf (sk : SecpSecretKey) : SecpPublicKey :=
  sk % curveOrder

/-- `SecretKey::add_tweak`: scalar addition modulo the curve order; the
library rejects the zero scalar (`InvalidTweak`-style error). -/
def skAddTweak (sk tweak : SecpSecretKey) : Except SecpError SecpSecretKey :=
  let r := (sk + tweak) % curveOrder
  if r = 0 then .error .invalidTweak else .ok r

/-- `PublicKey::combine`: elliptic-curve point addition; fails when the
sum is the point at infinity (the zero class). -/
def combinePk (a b : SecpPublicKey) : Except SecpError SecpPublicKey :=
  let r := (a + b) % curveOrder
  if r = 0 then .error .invalidPublicKey else .ok r

/-- `PublicKey::negate`: point negation. -/
def negatePk (a : SecpPublicKey) : SecpPublicKey :=
  (curveOrder - a % curveOrder) % curveOrder

/-- `SecretKey::from_slice` on a 32-byte digest viewed as an integer:
succeeds exactly when the value is a valid scalar in `[1, curveOrder)`. -/
def skFromSlice (h : ℕ) : Except SecpError SecpSecretKey :=
  if 0 < h ∧ h < curveOrder then .ok h else .error .invalidSecretKey

/-! ## Commitment engine (`crates/types/src/commitment.rs`) -/

/-- `FirstRankCommitment`: an ephemeral keypair of the Challenger. -/
structure FirstRankCommitment where
  secret_key : SecpSecretKey
  public_key : SecpPublicKey
  deriving DecidableEq, Repr

/-- `FirstRankCommitment::add_tweak`: scalar addition of the commitment
secret key and an externally supplied secret key. -/
def FirstRankCommitment.add_tweak (c : FirstRankCommitment)
    (tweak : SecpSecretKey) : Except SecpError SecpSecretKey :=
  skAddTweak c.secret_key tweak

/-- `FirstRankCommitment::combine`: point addition on the commitment
public key. -/
def FirstRankCommitment.combine (c : FirstRankCommitment)
    (tweak : SecpPublicKey) : Except SecpError SecpPublicKey :=
  combinePk c.public_key tweak

/-- `ThirdRankCommitment`: a public key shared with the counterparty. -/
structure ThirdRankCommitment where
  public_key : SecpPublicKey
  deriving DecidableEq, Repr

/-- `ThirdRankCommitment::combine`: point addition on the commitment
public key. -/
def ThirdRankCommitment.combine (c : ThirdRankCommitment)
    (tweak : SecpPublicKey) : Except SecpError SecpPublicKey :=
  combinePk c.public_key tweak

/-- `COMMITMENTS_COUNT = 2`: the aggregate holds exactly two first-rank
and two third-rank commitments. -/
structure Commitments where
  first0 : FirstRankCommitment
  first1 : FirstRankCommitment
  third0 : ThirdRankCommitment
  third1 : ThirdRankCommitment
  deriving DecidableEq, Repr

/-- Index accessor for the fixed-size first-rank array. -/
def Commitments.firstRank (cs : Commitments) : Fin 2 → FirstRankCommitment
  | 0 => cs.first0
  | 1 => cs.first1

/-- Index accessor for the fixed-size third-rank array. -/
def Commitments.thirdRank (cs : Commitments) : Fin 2 → ThirdRankCommitment
  | 0 => cs.third0
  | 1 => cs.third1

/-- SHA256 over the 33-byte compressed serialization of a public key,
read as a 256-bit integer.  Opaque library composition
(`sha256::Hash::hash(&pk.serialize())`), kept as a function parameter. -/
structure HashModel where
  hashPk : SecpPublicKey → ℕ

/-- `Commitments::generate`: the random source is embedded as the two
secret keys the library keypair generator returns.  Builds two
first-rank keypairs, derives the second-rank secrets as
`SecretKey::from_slice(sha256(pk.serialize()))` (propagating
`InvalidSecretKey` when the digest is out of range) and the third-rank
public keys as the public keys of those secrets. -/
def Commitments.generate (hm : HashModel) (sk0 sk1 : SecpSecretKey) :
    Except SecpError Commitments := do
  let f0 : FirstRankCommitment := ⟨sk0, pubkeyOf sk0⟩
  let f1 : FirstRankCommitment := ⟨sk1, pubkeyOf sk1⟩
  let s0 ← skFromSlice (hm.hashPk f0.public_key)
  let s1 ← skFromSlice (hm.hashPk f1.public_key)
  return { first0 := f0, first1 := f1
           third0 := ⟨pubkeyOf s0⟩, third1 := ⟨pubkeyOf s1⟩ }

/-! ## Bitcoin data model -/

/-- A transaction outpoint (`bitcoin::OutPoint`); the txid is an opaque
256-bit value. -/
structure OutPoint where
  txid : ℕ
  vout : ℕ
  deriving DecidableEq, Repr

/-- `bitcoin::Amount`, in satoshi.  Its arithmetic operators are checked
and panic on u64 overflow; call sites model that explicitly. -/
abbrev Amount := ℕ

/-- `bitcoin::PublicKey`: a secp256k1 key plus its compressedness flag
(`PublicKey::new` and `From<secp256k1::PublicKey>` set it). -/
structure BPublicKey where
  compressed : Bool
  inner : SecpPublicKey
  deriving DecidableEq, Repr

/-- `bitcoin::PublicKey::new`: wraps a secp key as compressed. -/
def BPublicKey.new (pk : SecpPublicKey) : BPublicKey :=
  ⟨true, pk⟩

/-- The script elements pushed by `scripts.rs` through
`bitcoin::script::Builder`. -/
inductive ScriptElem where
  | opIf
  | opCheckSig
  | opElse
  | opCltv
  | opDrop
  | opEndif
  | pushKey (pk : BPublicKey)
  | pushLockTime (lt : ℕ)
  deriving DecidableEq, Repr

/-- `bitcoin::ScriptBuf` as this code base constructs it.  `p2wpkh pk`
stands for `ScriptBuf::new_p2wpkh(&wpubkey_hash(pk))` and `p2wsh s` for
`ScriptBuf::new_p2wsh(&s.wscript_hash())`; HASH160 and SHA256 are
injective on the scripts and keys this program forms, so the hash
pre-image is stored directly. -/
inductive Script where
  | raw (elems : List ScriptElem)
  | p2wpkh (pk : SecpPublicKey)
  | p2wsh (ws : Script)
  deriving DecidableEq, Repr

/-- `Sequence::MAX` (0xFFFFFFFF), the `TxIn::default()` sequence. -/
def sequenceFinal : ℕ := 4294967295

/-- `Sequence::ENABLE_LOCKTIME_NO_RBF` (0xFFFFFFFE). -/
def sequenceEnableLocktimeNoRbf : ℕ := 4294967294

/-- A sequence value lets the transaction-level locktime apply exactly
when it is not the final sequence. -/
def SequenceEnablesLockTime (s : ℕ) : Prop :=
  s ≠ sequenceFinal

/-- `bitcoin::TxIn`; the witness is a stack of byte strings.  The
`script_sig` field is never set by this code base, so it is omitted. -/
structure TxIn where
  previous_output : OutPoint
  sequence : ℕ
  witness : List (List ℕ)
  deriving DecidableEq, Repr

/-- `TxIn { previous_output, ..Default::default() }`. -/
def defaultTxIn (op : OutPoint) : TxIn :=
  { previous_output := op, sequence := sequenceFinal, witness := [] }

/-- `bitcoin::TxOut`. -/
structure TxOut where
  value : Amount
  script_pubkey : Script
  deriving DecidableEq, Repr

/-- `bitcoin::Transaction`. -/
structure Transaction where
  version : ℕ
  lock_time : ℕ
  input : List TxIn
  output : List TxOut
  deriving DecidableEq, Repr

/-- A secp256k1 ECDSA signature.  Signing is deterministic (RFC 6979),
so a signature is a function of the digest and the signing key; the
model keeps the pair itself. -/
structure Sig where
  msg : ℕ
  sk : SecpSecretKey
  deriving DecidableEq, Repr

/-- `EcdsaSighashType::All` as a byte. -/
def sighashAll : ℕ := 1

/-- `bitcoin::ecdsa::Signature`: a signature plus its sighash type. -/
structure EcdsaSig where
  signature : Sig
  sighash_type : ℕ
  deriving DecidableEq, Repr

/-- `TransactionError` (`crates/transaction-builder/src/errors.rs`).
Payloads other than the secp256k1 error are dropped.  The final three
variants are the ones `transaction_builder.rs` constructs for miniscript
PSBT finalization failure, extraction failure and P2WSH sighash
failure. -/
inductive TransactionError where
  | uncompressedPublicKey
  | p2wpkh
  | secp256k1 (e : SecpError)
  | psbt
  | amountsScriptsLengthMismatch
  | inputsOutputsLengthMismatch
  | noDepositTxStored
  | transactionTypeMismatch
  | inputIndexOutOfBounds
  | psbtFinalizeFailed
  | extractTransactionFailed
  | failedToSignP2wshInput
  deriving DecidableEq, Repr

/-- Result of a Rust function whose body can panic: `panic` is an index
out of bounds or a checked-arithmetic overflow, distinct from every
returned `TransactionError`. -/
inductive PResult (α : Type) where
  | ok (a : α)
  | err (e : TransactionError)
  | panic
  deriving DecidableEq, Repr

/-- One PSBT input map (`bitcoin::psbt::Input`), restricted to the
fields this code base touches. -/
structure PsbtInput where
  partial_sigs : List (BPublicKey × EcdsaSig)
  witness_utxo : Option TxOut
  sighash_type : Option ℕ
  deriving DecidableEq, Repr

/-- `psbt::Input::default()`. -/
def emptyPsbtInput : PsbtInput :=
  { partial_sigs := [], witness_utxo := none, sighash_type := none }

/-- `bitcoin::Psbt`, restricted to the fields this code base touches. -/
structure Psbt where
  unsigned_tx : Transaction
  inputs : List PsbtInput
  deriving DecidableEq, Repr

/-- `BTreeMap::insert` on the `partial_sigs` map: replace the value at
an existing key, else append the binding. -/
def insertSig (l : List (BPublicKey × EcdsaSig)) (k : BPublicKey)
    (v : EcdsaSig) : List (BPublicKey × EcdsaSig) :=
  if l.any (fun e => decide (e.1 = k)) then
    l.map (fun e => if e.1 = k then (k, v) else e)
  else
    l ++ [(k, v)]

/-- `Psbt::from_unsigned_tx`: rejects a transaction that already has
witness data (`UnsignedTxHasScriptWitnesses`), otherwise pairs it with
one default input map per transaction input. -/
def Psbt.from_unsigned_tx (tx : Transaction) : Except TransactionError Psbt :=
  if tx.input.all (fun i => i.witness.isEmpty) then
    .ok { unsigned_tx := tx, inputs := tx.input.map (fun _ => emptyPsbtInput) }
  else
    .error .psbt

/-- Opaque library functions used by the transaction builder, kept as
parameters: SHA256 over a serialized key (inherited from `HashModel`),
compressed key serialization, key parsing (`PublicKey::from_slice`),
BIP143 sighash computation for P2WPKH and P2WSH spends, DER signature
encoding, script serialization (`ScriptBuf::to_bytes`), txid
computation, and miniscript PSBT finalization plus transaction
extraction.  Every theorem holds for an arbitrary interpretation. -/
structure Crypto extends HashModel where
  serializePk : SecpPublicKey → List ℕ
  parsePk : List ℕ → Option BPublicKey
  sighashP2wpkh : Transaction → ℕ → Script → Amount → ℕ
  sighashP2wsh : Transaction → ℕ → Script → Amount → ℕ
  derSig : Sig → List ℕ
  serializeScript : Script → List ℕ
  txid : Transaction → ℕ
  finalizePsbt : Psbt → Option Psbt
  extractTx : Psbt → Option Transaction

/-! ## Script templates (`crates/transaction-builder/src/scripts.rs`) -/

/-- `create_p2wpkh_script`: `wpubkey_hash` rejects an uncompressed key,
otherwise the standard P2WPKH script over the key hash. -/
def create_p2wpkh_script (public_key : BPublicKey) :
    Except TransactionError Script :=
  if public_key.compressed then
    .ok (.p2wpkh public_key.inner)
  else
    .error .uncompressedPublicKey

/-- `create_challenge_p2wsh_script`: the two-branch challenge script
built opcode by opcode through `script::Builder`. -/
def create_challenge_p2wsh_script (challenger_pubkey : BPublicKey)
    (tweaked_acceptor_pubkey : BPublicKey) (lock_time : ℕ) : Script :=
  .raw [.opIf, .pushKey tweaked_acceptor_pubkey, .opCheckSig,
        .opElse, .pushLockTime lock_time, .opCltv, .opDrop,
        .pushKey challenger_pubkey, .opCheckSig, .opEndif]

/-! ## Transaction builder
(`crates/transaction-builder/src/transaction_builder.rs`) -/

/-- `TransactionBuilder`: the single secret key the builder holds (the
curve context is a phantom). -/
structure TransactionBuilder where
  secret_key : SecpSecretKey
  deriving DecidableEq, Repr

/-- `create_tx`: version 1 transaction with the given pieces; the
locktime defaults to zero. -/
def create_tx (input : List TxIn) (output : List TxOut)
    (lock_time : Option ℕ) : Transaction :=
  { version := 1, lock_time := lock_time.getD 0, input := input,
    output := output }

/-- `TransactionBuilder::sign_single_input`: BIP143 P2WPKH sighash over
the builder key's own script code, then the witness
`[DER signature ‖ sighash byte, compressed public key]`.  The script
code for the builder's compressed key always forms; the sighash
computation rejects an out-of-range input index (`P2wpkhError`), which
the separate `InputIndexOutOfBounds` check can then no longer reach. -/
def sign_single_input (b : TransactionBuilder) (c : Crypto)
    (tx : Transaction) (input_index : ℕ) (amount : Amount) :
    Except TransactionError Transaction :=
  let public_key := pubkeyOf b.secret_key
  let script_code := Script.p2wpkh public_key
  match tx.input.get? input_index with
  | none => .error .p2wpkh
  | some txin =>
    let sighash := c.sighashP2wpkh tx input_index script_code amount
    let final_signature := c.derSig ⟨sighash, b.secret_key⟩ ++ [sighashAll]
    let txin := { txin with
      witness := [final_signature, c.serializePk public_key] }
    .ok { tx with input := tx.input.set input_index txin }

/-- The loop body of `TransactionBuilder::sign_transaction`: sign each
input in order with the builder's key, threading the transaction. -/
def sign_inputs (b : TransactionBuilder) (c : Crypto) :
    Transaction → ℕ → List Amount → Except TransactionError Transaction
  | tx, _, [] => .ok tx
  | tx, i, amount :: rest => do
    let tx2 ← sign_single_input b c tx i amount
    sign_inputs b c tx2 (i + 1) rest

/-- `TransactionBuilder::sign_transaction`: requires exactly one amount
per input, then signs every input with the builder's key. -/
def sign_transaction (b : TransactionBuilder) (c : Crypto)
    (tx : Transaction) (amounts : List Amount) :
    Except TransactionError Transaction :=
  if tx.input.length ≠ amounts.length then
    .error .inputsOutputsLengthMismatch
  else
    sign_inputs b c tx 0 amounts

/-- `TransactionBuilder::build_deposit_transaction`. -/
def build_deposit_transaction (b : TransactionBuilder) (c : Crypto)
    (first_rank_commitment : FirstRankCommitment)
    (previous_outputs : List (OutPoint × Amount))
    (deposit_amount : Amount) (change_amount : Option Amount)
    (change_pubkey : Option BPublicKey) :
    Except TransactionError Transaction := do
  let public_key := BPublicKey.new (pubkeyOf b.secret_key)
  let challenge_pubkey ←
    match first_rank_commitment.combine public_key.inner with
    | .error e => .error (.secp256k1 e)
    | .ok pk => .ok pk
  let deposit_script ← create_p2wpkh_script (BPublicKey.new challenge_pubkey)
  let outputs := [TxOut.mk deposit_amount deposit_script]
  let outputs ←
    match change_amount with
    | none => .ok outputs
    | some ca => do
      let change_script ← create_p2wpkh_script (change_pubkey.getD public_key)
      .ok (outputs ++ [TxOut.mk ca change_script])
  let inputs := previous_outputs.map (fun po => defaultTxIn po.1)
  let amounts := previous_outputs.map (fun po => po.2)
  let deposit_tx := create_tx inputs outputs none
  sign_transaction b c deposit_tx amounts

/-- `TransactionBuilder::sign_psbt_input`: fetch the PSBT input map
(`InputIndexOutOfBounds` when absent), sign the BIP143 P2WPKH sighash of
the unsigned transaction with the given key (defaulting to the builder
key; the sighash computation rejects an out-of-range index), record the
partial signature under the signing key's public key, store the witness
UTXO, and set the sighash type when unset. -/
def sign_psbt_input (b : TransactionBuilder) (c : Crypto) (psbt : Psbt)
    (input_index : ℕ) (amount : Amount)
    (secret_key : Option SecpSecretKey) : Except TransactionError Psbt :=
  match psbt.inputs.get? input_index with
  | none => .error .inputIndexOutOfBounds
  | some psbt_input =>
    let sk := secret_key.getD b.secret_key
    let public_key := pubkeyOf sk
    let script_pubkey := Script.p2wpkh public_key
    if input_index < psbt.unsigned_tx.input.length then
      let sighash := c.sighashP2wpkh psbt.unsigned_tx input_index
        script_pubkey amount
      let final_signature : EcdsaSig := ⟨⟨sighash, sk⟩, sighashAll⟩
      let psbt_input := { psbt_input with
        partial_sigs := insertSig psbt_input.partial_sigs
          (BPublicKey.new public_key) final_signature
        witness_utxo := some (TxOut.mk amount script_pubkey)
        sighash_type :=
          match psbt_input.sighash_type with
          | none => some sighashAll
          | some t => some t }
      .ok { psbt with inputs := psbt.inputs.set input_index psbt_input }
    else
      .error .p2wpkh

/-- The loop of `TransactionBuilder::build_challenge_tx`: sign the
acceptor inputs, skipping the deposit input by incrementing each
enumeration index by one. -/
def sign_acceptor_inputs (b : TransactionBuilder) (c : Crypto) :
    List (OutPoint × Amount) → ℕ → Psbt → Except TransactionError Psbt
  | [], _, psbt => .ok psbt
  | po :: rest, i, psbt => do
    let psbt2 ← sign_psbt_input b c psbt (i + 1) po.2 none
    sign_acceptor_inputs b c rest (i + 1) psbt2

/-- `TransactionBuilder::build_challenge_tx`.  The amount doubling is
checked `Amount` multiplication, so a u64 overflow panics. -/
def build_challenge_tx (b : TransactionBuilder) (c : Crypto)
    (challenger_pubkey : BPublicKey) (deposit_outpoint : OutPoint)
    (third_rank_commitment : ThirdRankCommitment) (lock_time : ℕ)
    (amount : Amount) (previous_outputs : List (OutPoint × Amount))
    (change_amount : Option Amount) (change_pubkey : Option BPublicKey) :
    PResult (Script × Psbt) :=
  let acceptor_public_key := pubkeyOf b.secret_key
  match third_rank_commitment.combine acceptor_public_key with
  | .error e => .err (.secp256k1 e)
  | .ok tweaked_acceptor_pubkey =>
    let challenge_script := create_challenge_p2wsh_script challenger_pubkey
      (BPublicKey.new tweaked_acceptor_pubkey) lock_time
    if amount * 2 < 2 ^ 64 then
      let outputs := [TxOut.mk (amount * 2) (Script.p2wsh challenge_script)]
      let change_outputs : Except TransactionError (List TxOut) :=
        match change_amount with
        | none => .ok []
        | some ca => do
          let change_script ← create_p2wpkh_script
            (change_pubkey.getD (BPublicKey.new acceptor_public_key))
          .ok [TxOut.mk ca change_script]
      match change_outputs with
      | .error e => .err e
      | .ok extra =>
        let outputs := outputs ++ extra
        let inputs := defaultTxIn deposit_outpoint ::
          previous_outputs.map (fun po => defaultTxIn po.1)
        let challenge_tx := create_tx inputs outputs none
        match Psbt.from_unsigned_tx challenge_tx with
        | .error e => .err e
        | .ok psbt =>
          match sign_acceptor_inputs b c previous_outputs 0 psbt with
          | .error e => .err e
          | .ok psbt2 => .ok (challenge_script, psbt2)
    else
      .panic

/-- `TransactionBuilder::complete_challenge_tx`: sign the deposit input
with the scalar sum of the selected first-rank secret and the builder
secret, finalize the PSBT, then extract the transaction, mapping
extraction failure to `ExtractTransactionFailed`. -/
def complete_challenge_tx (b : TransactionBuilder) (c : Crypto)
    (psbt : Psbt) (deposit_amount : Amount) (deposit_input_index : ℕ)
    (first_rank_commitment : FirstRankCommitment) :
    Except TransactionError Transaction := do
  let deposit_signing_key ←
    match first_rank_commitment.add_tweak b.secret_key with
    | .error e => .error (.secp256k1 e)
    | .ok k => .ok k
  let psbt2 ← sign_psbt_input b c psbt deposit_input_index deposit_amount
    (some deposit_signing_key)
  match c.finalizePsbt psbt2 with
  | none => .error .psbtFinalizeFailed
  | some psbt3 =>
    match c.extractTx psbt3 with
    | none => .error .extractTransactionFailed
    | some tx => .ok tx

/-- `TransactionBuilder::sign_p2wsh_input_acceptor`: P2WSH sighash over
the witness script (failure mapped to `FailedToSignP2wshInput`), then
the OP_IF-branch witness `[signature, [1], witness script]` signed with
the tweaked key. -/
def sign_p2wsh_input_acceptor (c : Crypto) (tx : Transaction)
    (input_index : ℕ) (amount : Amount) (witness_script : Script)
    (tweaked_secret_key : SecpSecretKey) :
    Except TransactionError Transaction :=
  if input_index < tx.input.length then
    let sighash := c.sighashP2wsh tx input_index witness_script amount
    let final_signature :=
      c.derSig ⟨sighash, tweaked_secret_key⟩ ++ [sighashAll]
    match tx.input.get? input_index with
    | none => .error .inputIndexOutOfBounds
    | some txin =>
      let txin := { txin with
        witness := [final_signature, [1], c.serializeScript witness_script] }
      .ok { tx with input := tx.input.set input_index txin }
  else
    .error .failedToSignP2wshInput

/-- `TransactionBuilder::sign_p2wsh_input_challenger`: as the acceptor
variant, but signed with the builder's own key and with the empty push
selecting the OP_ELSE branch: `[signature, [], witness script]`. -/
def sign_p2wsh_input_challenger (b : TransactionBuilder) (c : Crypto)
    (tx : Transaction) (input_index : ℕ) (amount : Amount)
    (witness_script : Script) : Except TransactionError Transaction :=
  if input_index < tx.input.length then
    let sighash := c.sighashP2wsh tx input_index witness_script amount
    let final_signature := c.derSig ⟨sighash, b.secret_key⟩ ++ [sighashAll]
    match tx.input.get? input_index with
    | none => .error .inputIndexOutOfBounds
    | some txin =>
      let txin := { txin with
        witness := [final_signature, [], c.serializeScript witness_script] }
      .ok { tx with input := tx.input.set input_index txin }
  else
    .error .failedToSignP2wshInput

/-- `TransactionBuilder::sweep_challenge_output_acceptor`.  The Rust
body indexes `output[0]`, subtracts the fee with checked `Amount`
subtraction, and indexes `input[0].witness[1]`; each failing access is a
panic.  The recovered witness key minus the challenger key is hashed to
the second-rank secret, which tweaks the acceptor key for signing. -/
def sweep_challenge_output_acceptor (b : TransactionBuilder) (c : Crypto)
    (challenge_transaction : Transaction) (challenger_pubkey : BPublicKey)
    (witness_script : Script) (recipient_pubkey : Option BPublicKey)
    (fee : Amount) : PResult Transaction :=
  let inputs := [defaultTxIn (OutPoint.mk (c.txid challenge_transaction) 0)]
  match challenge_transaction.output.get? 0 with
  | none => .panic
  | some out0 =>
    if fee ≤ out0.value then
      match create_p2wpkh_script
        (recipient_pubkey.getD (BPublicKey.new (pubkeyOf b.secret_key))) with
      | .error e => .err e
      | .ok recipient_script =>
        let outputs := [TxOut.mk (out0.value - fee) recipient_script]
        match challenge_transaction.input.get? 0 with
        | none => .panic
        | some deposit_input =>
          match deposit_input.witness.get? 1 with
          | none => .panic
          | some w1 =>
            match c.parsePk w1 with
            | none => .err (.secp256k1 .invalidPublicKey)
            | some witness_pubkey =>
              let negated := negatePk challenger_pubkey.inner
              match combinePk witness_pubkey.inner negated with
              | .error e => .err (.secp256k1 e)
              | .ok second_rank_commitment =>
                match skFromSlice (c.hashPk second_rank_commitment) with
                | .error e => .err (.secp256k1 e)
                | .ok second_rank_commitment_sk =>
                  match skAddTweak b.secret_key second_rank_commitment_sk with
                  | .error e => .err (.secp256k1 e)
                  | .ok tweaked_acceptor_sk =>
                    let tx := create_tx inputs outputs none
                    match sign_p2wsh_input_acceptor c tx 0 out0.value
                      witness_script tweaked_acceptor_sk with
                    | .error e => .err e
                    | .ok tx2 => .ok tx2
    else
      .panic

/-- `TransactionBuilder::sweep_challenge_output_challenger`: one input
with sequence `ENABLE_LOCKTIME_NO_RBF`, the challenge value minus the
fee (checked subtraction: panic on overflow, as is the `output[0]`
access), transaction locktime set to the given locktime, signed along
the OP_ELSE branch with the builder's own key. -/
def sweep_challenge_output_challenger (b : TransactionBuilder) (c : Crypto)
    (challenge_transaction : Transaction) (witness_script : Script)
    (lock_time : ℕ) (recipient_pubkey : Option BPublicKey)
    (fee : Amount) : PResult Transaction :=
  let challenger_pubkey := pubkeyOf b.secret_key
  let inputs := [TxIn.mk (OutPoint.mk (c.txid challenge_transaction) 0)
    sequenceEnableLocktimeNoRbf []]
  match challenge_transaction.output.get? 0 with
  | none => .panic
  | some out0 =>
    if fee ≤ out0.value then
      match create_p2wpkh_script
        (recipient_pubkey.getD (BPublicKey.new challenger_pubkey)) with
      | .error e => .err e
      | .ok recipient_script =>
        let outputs := [TxOut.mk (out0.value - fee) recipient_script]
        let tx := create_tx inputs outputs (some lock_time)
        match sign_p2wsh_input_challenger b c tx 0 out0.value
          witness_script with
        | .error e => .err e
        | .ok tx2 => .ok tx2
    else
      .panic

/-! ## Helper lemmas -/

/-- The PSBT input map that `sign_psbt_input` writes back at the signed
index, as a function of the previous map content. -/
def signedPsbtInput (c : Crypto) (tx : Transaction) (idx : ℕ)
    (amt : Amount) (k : SecpSecretKey) (old : PsbtInput) : PsbtInput :=
  { partial_sigs := insertSig old.partial_sigs (BPublicKey.new (pubkeyOf k))
      ⟨⟨c.sighashP2wpkh tx idx (.p2wpkh (pubkeyOf k)) amt, k⟩, sighashAll⟩
    witness_utxo := some (TxOut.mk amt (.p2wpkh (pubkeyOf k)))
    sighash_type :=
      match old.sighash_type with
      | none => some sighashAll
      | some t => some t }

theorem sign_psbt_input_eq_ok {b : TransactionBuilder} {c : Crypto}
    {psbt : Psbt} {idx : ℕ} {amt : Amount} {sk : Option SecpSecretKey}
    {p2 : Psbt} :
    sign_psbt_input b c psbt idx amt sk = .ok p2 ↔
    ∃ old, psbt.inputs.get? idx = some old ∧
      idx < psbt.unsigned_tx.input.length ∧
      p2 = { psbt with
             inputs := psbt.inputs.set idx
               (signedPsbtInput c psbt.unsigned_tx idx amt
                 (sk.getD b.secret_key) old) } := by
  unfold sign_psbt_input signedPsbtInput
  cases hg : psbt.inputs.get? idx with
  | none => simp
  | some old =>
    dsimp only
    by_cases hlt : idx < psbt.unsigned_tx.input.length
    · rw [if_pos hlt]
      constructor
      · intro h
        injection h with h
        exact ⟨old, rfl, hlt, h.symm⟩
      · rintro ⟨old2, hold2, -, hp2⟩
        injection hold2 with hold2
        rw [hp2, hold2]
    · rw [if_neg hlt]
      constructor
      · intro h
        cases h
      · rintro ⟨old2, -, h2, -⟩
        exact absurd h2 hlt

theorem get?_map_const {α β : Type} (l : List α) (x : β) (j : ℕ)
    (hj : j < l.length) : (l.map (fun _ => x)).get? j = some x := by
  rw [List.get?_map]
  cases hg : l.get? j with
  | none => exact absurd (List.get?_eq_none.mp hg) (by omega)
  | some a => rfl

theorem sign_acceptor_inputs_spec (b : TransactionBuilder) (c : Crypto) :
    ∀ (prev : List (OutPoint × Amount)) (i : ℕ) (p p2 : Psbt),
    sign_acceptor_inputs b c prev i p = .ok p2 →
    (∀ j, i < j → j < p.inputs.length →
      p.inputs.get? j = some emptyPsbtInput) →
    p2.unsigned_tx = p.unsigned_tx ∧
    p2.inputs.length = p.inputs.length ∧
    (∀ j, j ≤ i → p2.inputs.get? j = p.inputs.get? j) ∧
    (∀ j, i < j → j ≤ i + prev.length →
      ∃ amtj, p2.inputs.get? j = some (signedPsbtInput c p.unsigned_tx j
        amtj b.secret_key emptyPsbtInput)) := by
  intro prev
  induction prev with
  | nil =>
    intro i p p2 h hemp
    unfold sign_acceptor_inputs at h
    injection h with h
    subst h
    refine ⟨rfl, rfl, fun j _ => rfl, fun j hj hj2 => ?_⟩
    simp only [List.length_nil] at hj2
    omega
  | cons po rest ih =>
    intro i p p2 h hemp
    unfold sign_acceptor_inputs at h
    simp only [bind, Except.bind] at h
    cases h1 : sign_psbt_input b c p (i + 1) po.2 none with
    | error e => rw [h1] at h; cases h
    | ok p1 =>
      rw [h1] at h
      obtain ⟨old, hold, hlt, hp1⟩ := sign_psbt_input_eq_ok.mp h1
      have hb : i + 1 < p.inputs.length := by
        by_contra hb
        rw [List.get?_eq_none.mpr (by omega)] at hold
        cases hold
      have holdE : old = emptyPsbtInput := by
        rw [hemp (i + 1) (by omega) hb] at hold
        injection hold with hold
        exact hold.symm
      subst holdE
      have hp1u : p1.unsigned_tx = p.unsigned_tx := by rw [hp1]
      have hp1len : p1.inputs.length = p.inputs.length := by
        rw [hp1]
        exact List.length_set ..
      have hp1ne : ∀ j, j ≠ i + 1 → p1.inputs.get? j = p.inputs.get? j := by
        intro j hj
        rw [hp1]
        exact List.get?_set_ne _ _ (fun hee => hj hee.symm)
      have hp1eq : p1.inputs.get? (i + 1) =
          some (signedPsbtInput c p.unsigned_tx (i + 1) po.2 b.secret_key
            emptyPsbtInput) := by
        rw [hp1]
        simpa using List.get?_set_eq_of_lt _ hb
      have hemp1 : ∀ j, i + 1 < j → j < p1.inputs.length →
          p1.inputs.get? j = some emptyPsbtInput := by
        intro j hj hj2
        rw [hp1ne j (by omega)]
        exact hemp j (by omega) (hp1len ▸ hj2)
      obtain ⟨hu, hl, hlow, hhigh⟩ := ih (i + 1) p1 p2 h hemp1
      refine ⟨hu.trans hp1u, hl.trans hp1len, ?_, ?_⟩
      · intro j hj
        rw [hlow j (by omega)]
        exact hp1ne j (by omega)
      · intro j hj hj2
        simp only [List.length_cons] at hj2
        rcases Nat.eq_or_lt_of_le (Nat.succ_le_of_lt hj) with hje | hjgt
        · refine ⟨po.2, ?_⟩
          rw [hlow j (by omega), ← hje]
          exact hp1eq
        · obtain ⟨amtj, hamt⟩ := hhigh j (by omega) (by omega)
          exact ⟨amtj, hp1u ▸ hamt⟩

theorem from_unsigned_tx_ok {tx : Transaction} {p0 : Psbt}
    (h : Psbt.from_unsigned_tx tx = .ok p0) :
    p0.unsigned_tx = tx ∧
    p0.inputs = tx.input.map (fun _ => emptyPsbtInput) := by
  unfold Psbt.from_unsigned_tx at h
  split at h
  · injection h with h
    subst h
    exact ⟨rfl, rfl⟩
  · cases h

theorem build_challenge_tx_ok {b : TransactionBuilder} {c : Crypto}
    {ch : BPublicKey} {dep : OutPoint} {trc : ThirdRankCommitment}
    {lt : ℕ} {amount : Amount} {prev : List (OutPoint × Amount)}
    {ca : Option Amount} {cp : Option BPublicKey} {s : Script} {psbt : Psbt}
    (h : build_challenge_tx b c ch dep trc lt amount prev ca cp =
      .ok (s, psbt)) :
    ∃ tweaked extra,
      trc.combine (pubkeyOf b.secret_key) = .ok tweaked ∧
      s = create_challenge_p2wsh_script ch (BPublicKey.new tweaked) lt ∧
      psbt.unsigned_tx = create_tx
        (defaultTxIn dep :: prev.map (fun po => defaultTxIn po.1))
        ([TxOut.mk (amount * 2) (Script.p2wsh s)] ++ extra) none ∧
      (ca = none → extra = []) ∧
      psbt.inputs.length = 1 + prev.length ∧
      psbt.inputs.get? 0 = some emptyPsbtInput ∧
      (∀ j, 0 < j → j < psbt.inputs.length →
        ∃ amtj, psbt.inputs.get? j = some (signedPsbtInput c
          psbt.unsigned_tx j amtj b.secret_key emptyPsbtInput)) := by
  unfold build_challenge_tx at h
  dsimp only at h
  cases hcomb : trc.combine (pubkeyOf b.secret_key) with
  | error e => rw [hcomb] at h; cases h
  | ok tweaked =>
    rw [hcomb] at h
    dsimp only at h
    by_cases hmul : amount * 2 < 2 ^ 64
    · rw [if_pos hmul] at h
      refine ⟨tweaked, ?_⟩
      cases ca with
      | none =>
        dsimp only at h
        cases hfrom : Psbt.from_unsigned_tx (create_tx
            (defaultTxIn dep :: prev.map (fun po => defaultTxIn po.1))
            ([TxOut.mk (amount * 2) (Script.p2wsh
              (create_challenge_p2wsh_script ch (BPublicKey.new tweaked)
                lt))] ++ []) none) with
        | error e =>
          rw [hfrom] at h
          cases h
        | ok psbt0 =>
          rw [hfrom] at h
          dsimp only at h
          obtain ⟨hu0, hi0⟩ := from_unsigned_tx_ok hfrom
          cases hloop : sign_acceptor_inputs b c prev 0 psbt0 with
          | error e => rw [hloop] at h; cases h
          | ok psbt1 =>
            rw [hloop] at h
            injection h with h
            injection h with hs hpsbt
            subst hs
            subst hpsbt
            have hlen0 : psbt0.inputs.length = 1 + prev.length := by
              rw [hi0]
              simp only [create_tx, List.length_map, List.length_cons]
              omega
            have hemp : ∀ j, 0 < j → j < psbt0.inputs.length →
                psbt0.inputs.get? j = some emptyPsbtInput := by
              intro j _ hj2
              rw [hi0]
              exact get?_map_const _ _ j (by
                rw [hi0] at hj2
                simpa using hj2)
            obtain ⟨hu, hl, hlow, hhigh⟩ :=
              sign_acceptor_inputs_spec b c prev 0 psbt0 psbt1 hloop hemp
            refine ⟨[], rfl, rfl, by rw [hu, hu0], fun _ => rfl,
              hl.trans hlen0, ?_, ?_⟩
            · rw [hlow 0 le_rfl, hi0]
              exact get?_map_const _ _ 0 (by simp [create_tx])
            · intro j hj hj2
              obtain ⟨amtj, hamt⟩ := hhigh j hj (by omega)
              exact ⟨amtj, by rw [hamt, hu, hu0]⟩
      | some cav =>
        simp only [bind, Except.bind] at h
        cases hscript : create_p2wpkh_script
            (cp.getD (BPublicKey.new (pubkeyOf b.secret_key))) with
        | error e =>
          rw [hscript] at h
          dsimp only at h
          cases h
        | ok cscript =>
          rw [hscript] at h
          dsimp only at h
          cases hfrom : Psbt.from_unsigned_tx (create_tx
              (defaultTxIn dep :: prev.map (fun po => defaultTxIn po.1))
              ([TxOut.mk (amount * 2) (Script.p2wsh
                (create_challenge_p2wsh_script ch (BPublicKey.new tweaked)
                  lt))] ++ [TxOut.mk cav cscript]) none) with
          | error e =>
            rw [hfrom] at h
            cases h
          | ok psbt0 =>
            rw [hfrom] at h
            dsimp only at h
            obtain ⟨hu0, hi0⟩ := from_unsigned_tx_ok hfrom
            cases hloop : sign_acceptor_inputs b c prev 0 psbt0 with
            | error e => rw [hloop] at h; cases h
            | ok psbt1 =>
              rw [hloop] at h
              injection h with h
              injection h with hs hpsbt
              subst hs
              subst hpsbt
              have hlen0 : psbt0.inputs.length = 1 + prev.length := by
                rw [hi0]
                simp only [create_tx, List.length_map, List.length_cons]
                omega
              have hemp : ∀ j, 0 < j → j < psbt0.inputs.length →
                  psbt0.inputs.get? j = some emptyPsbtInput := by
                intro j _ hj2
                rw [hi0]
                exact get?_map_const _ _ j (by
                  rw [hi0] at hj2
                  simpa using hj2)
              obtain ⟨hu, hl, hlow, hhigh⟩ :=
                sign_acceptor_inputs_spec b c prev 0 psbt0 psbt1 hloop hemp
              refine ⟨[TxOut.mk cav cscript], rfl, rfl, by rw [hu, hu0],
                (by intro hca; cases hca), hl.trans hlen0, ?_, ?_⟩
              · rw [hlow 0 le_rfl, hi0]
                exact get?_map_const _ _ 0 (by simp [create_tx])
              · intro j hj hj2
                obtain ⟨amtj, hamt⟩ := hhigh j hj (by omega)
                exact ⟨amtj, by rw [hamt, hu, hu0]⟩
    · rw [if_neg hmul] at h
      cases h

/-! ## Claim theorems -/

/-- C1: for every `Commitments` value returned successfully by
`Commitments::generate` (with any signing context and any random
source, embedded as the two generated secret keys) and each index
`i ∈ {0,1}`, the stored third-rank commitment's public key equals the
public key of the secret scalar obtained by interpreting SHA256 of the
compressed serialization of the i-th first-rank commitment's public key
as a secret key. -/
theorem claim_c1_third_rank_derivation (hm : HashModel)
    (sk0 sk1 : SecpSecretKey) (cs : Commitments)
    (h : Commitments.generate hm sk0 sk1 = .ok cs) (i : Fin 2) :
    ∃ s, skFromSlice (hm.hashPk ((cs.firstRank i).public_key)) = .ok s ∧
      (cs.thirdRank i).public_key = pubkeyOf s := by
  unfold Commitments.generate at h
  simp only [bind, Except.bind] at h
  cases h0 : skFromSlice (hm.hashPk (pubkeyOf sk0)) with
  | error e => rw [h0] at h; cases h
  | ok s0 =>
    rw [h0] at h
    dsimp only at h
    cases h1 : skFromSlice (hm.hashPk (pubkeyOf sk1)) with
    | error e => rw [h1] at h; cases h
    | ok s1 =>
      rw [h1] at h
      dsimp only at h
      injection h with h
      subst h
      fin_cases i
      · exact ⟨s0, h0, rfl⟩
      · exact ⟨s1, h1, rfl⟩

/-- Fixed hash interpretation used by concrete witnesses. -/
def witHM : HashModel := ⟨fun _ => 1⟩

/-- The `Commitments` value `generate` returns for secret keys 1 and 2
under `witHM`. -/
def witCs : Commitments :=
  ⟨⟨1, pubkeyOf 1⟩, ⟨2, pubkeyOf 2⟩, ⟨pubkeyOf 1⟩, ⟨pubkeyOf 1⟩⟩

theorem claim_c1_witness :
    ∃ s, skFromSlice (witHM.hashPk ((witCs.firstRank 0).public_key)) =
      .ok s ∧ (witCs.thirdRank 0).public_key = pubkeyOf s :=
  claim_c1_third_rank_derivation witHM 1 2 witCs rfl 0

/-- C2: for every challenger public key, tweaked acceptor public key
(the third-rank commitment point combined with the acceptor's key) and
lock time, the challenge script is exactly the opcode sequence
OP_IF tweakedAcceptorPubkey OP_CHECKSIG OP_ELSE lockTime
OP_CHECKLOCKTIMEVERIFY OP_DROP challengerPubkey OP_CHECKSIG OP_ENDIF,
and `build_challenge_tx` locks its primary output with the
pay-to-witness-script-hash of exactly this script's serialized form. -/
theorem claim_c2_challenge_script_shape (b : TransactionBuilder)
    (c : Crypto) (ch : BPublicKey) (dep : OutPoint)
    (trc : ThirdRankCommitment) (lt : ℕ) (amount : Amount)
    (prev : List (OutPoint × Amount)) (ca : Option Amount)
    (cp : Option BPublicKey) (s : Script) (psbt : Psbt)
    (h : build_challenge_tx b c ch dep trc lt amount prev ca cp =
      .ok (s, psbt)) :
    ∃ tweaked, trc.combine (pubkeyOf b.secret_key) = .ok tweaked ∧
      s = .raw [.opIf, .pushKey (BPublicKey.new tweaked), .opCheckSig,
        .opElse, .pushLockTime lt, .opCltv, .opDrop, .pushKey ch,
        .opCheckSig, .opEndif] ∧
      (psbt.unsigned_tx.output.get? 0).map TxOut.script_pubkey =
        some (Script.p2wsh s) := by
  obtain ⟨tweaked, extra, hcomb, hs, hu, -, -, -, -⟩ :=
    build_challenge_tx_ok h
  refine ⟨tweaked, hcomb, hs, ?_⟩
  rw [hu]
  rfl

/-- C3: for every successful `build_challenge_tx` call, the unsigned
transaction's inputs are exactly the deposit outpoint followed by the
acceptor previous outpoints in order, the first output carries value
`2 * amount`, and with no change amount that is the only output. -/
theorem claim_c3_challenge_inputs_and_value (b : TransactionBuilder)
    (c : Crypto) (ch : BPublicKey) (dep : OutPoint)
    (trc : ThirdRankCommitment) (lt : ℕ) (amount : Amount)
    (prev : List (OutPoint × Amount)) (ca : Option Amount)
    (cp : Option BPublicKey) (s : Script) (psbt : Psbt)
    (h : build_challenge_tx b c ch dep trc lt amount prev ca cp =
      .ok (s, psbt)) :
    psbt.unsigned_tx.input.map (fun i => i.previous_output) =
      dep :: prev.map Prod.fst ∧
    (∃ out0, psbt.unsigned_tx.output.get? 0 = some out0 ∧
      out0.value = 2 * amount) ∧
    (ca = none → psbt.unsigned_tx.output.length = 1) := by
  obtain ⟨tweaked, extra, -, -, hu, hca, -, -, -⟩ :=
    build_challenge_tx_ok h
  refine ⟨?_, ⟨TxOut.mk (amount * 2) (Script.p2wsh s), by rw [hu]; rfl,
    Nat.mul_comm amount 2⟩, ?_⟩
  · rw [hu]
    simp [create_tx, defaultTxIn, List.map_map, Function.comp]
  · intro hcaN
    rw [hu, hca hcaN]
    rfl

/-- C4: for every PSBT returned successfully by `build_challenge_tx`,
every input at an index greater than 0 carries exactly one partial
signature, made with the builder's (Acceptor's) own key, together with
witness-UTXO metadata and sighash type ALL, and the input at index 0
carries no partial signature. -/
theorem claim_c4_partial_sig_isolation (b : TransactionBuilder)
    (c : Crypto) (ch : BPublicKey) (dep : OutPoint)
    (trc : ThirdRankCommitment) (lt : ℕ) (amount : Amount)
    (prev : List (OutPoint × Amount)) (ca : Option Amount)
    (cp : Option BPublicKey) (s : Script) (psbt : Psbt)
    (h : build_challenge_tx b c ch dep trc lt amount prev ca cp =
      .ok (s, psbt)) :
    psbt.inputs.length = 1 + prev.length ∧
    (∃ inp0, psbt.inputs.get? 0 = some inp0 ∧ inp0.partial_sigs = []) ∧
    (∀ j, 0 < j → j < psbt.inputs.length →
      ∃ inp amtj msg, psbt.inputs.get? j = some inp ∧
        inp.partial_sigs = [(BPublicKey.new (pubkeyOf b.secret_key),
          ⟨⟨msg, b.secret_key⟩, sighashAll⟩)] ∧
        inp.witness_utxo = some (TxOut.mk amtj
          (Script.p2wpkh (pubkeyOf b.secret_key))) ∧
        inp.sighash_type = some sighashAll) := by
  obtain ⟨tweaked, extra, -, -, -, -, hlen, h0, hhigh⟩ :=
    build_challenge_tx_ok h
  refine ⟨hlen, ⟨emptyPsbtInput, h0, rfl⟩, ?_⟩
  intro j hj hj2
  obtain ⟨amtj, hamt⟩ := hhigh j hj hj2
  exact ⟨_, amtj, _, hamt, rfl, rfl, rfl⟩

/-! Concrete witness data for the challenge-transaction claims. -/

/-- A concrete oracle instantiation for witnesses. -/
def witCrypto : Crypto :=
  { hashPk := fun _ => 1
    serializePk := fun _ => []
    parsePk := fun _ => none
    sighashP2wpkh := fun _ _ _ _ => 0
    sighashP2wsh := fun _ _ _ _ => 0
    derSig := fun _ => []
    serializeScript := fun _ => []
    txid := fun _ => 0
    finalizePsbt := fun p => some p
    extractTx := fun _ => none }

def witBuilder : TransactionBuilder := ⟨2⟩

def witCh : BPublicKey := ⟨true, 5⟩

def witDep : OutPoint := ⟨7, 0⟩

def witTrc : ThirdRankCommitment := ⟨1⟩

def witPrev : List (OutPoint × Amount) := [(⟨8, 1⟩, 9)]

/-- The challenge build the witnesses instantiate. -/
def witChal : PResult (Script × Psbt) :=
  build_challenge_tx witBuilder witCrypto witCh witDep witTrc 10 4
    witPrev none none

def witS : Script :=
  match witChal with
  | .ok sp => sp.1
  | _ => .raw []

def witPsbt : Psbt :=
  match witChal with
  | .ok sp => sp.2
  | _ => ⟨⟨0, 0, [], []⟩, []⟩

theorem claim_c2_witness :
    ∃ tweaked, witTrc.combine (pubkeyOf witBuilder.secret_key) =
        .ok tweaked ∧
      witS = .raw [.opIf, .pushKey (BPublicKey.new tweaked), .opCheckSig,
        .opElse, .pushLockTime 10, .opCltv, .opDrop, .pushKey witCh,
        .opCheckSig, .opEndif] ∧
      (witPsbt.unsigned_tx.output.get? 0).map TxOut.script_pubkey =
        some (Script.p2wsh witS) :=
  claim_c2_challenge_script_shape witBuilder witCrypto witCh witDep witTrc
    10 4 witPrev none none witS witPsbt rfl

theorem claim_c3_witness :
    witPsbt.unsigned_tx.input.map (fun i => i.previous_output) =
      witDep :: witPrev.map Prod.fst ∧
    (∃ out0, witPsbt.unsigned_tx.output.get? 0 = some out0 ∧
      out0.value = 2 * 4) ∧
    ((none : Option Amount) = none →
      witPsbt.unsigned_tx.output.length = 1) :=
  claim_c3_challenge_inputs_and_value witBuilder witCrypto witCh witDep
    witTrc 10 4 witPrev none none witS witPsbt rfl

theorem claim_c4_witness :
    witPsbt.inputs.length = 1 + witPrev.length ∧
    (∃ inp0, witPsbt.inputs.get? 0 = some inp0 ∧
      inp0.partial_sigs = []) ∧
    (∀ j, 0 < j → j < witPsbt.inputs.length →
      ∃ inp amtj msg, witPsbt.inputs.get? j = some inp ∧
        inp.partial_sigs = [(BPublicKey.new
          (pubkeyOf witBuilder.secret_key),
          ⟨⟨msg, witBuilder.secret_key⟩, sighashAll⟩)] ∧
        inp.witness_utxo = some (TxOut.mk amtj
          (Script.p2wpkh (pubkeyOf witBuilder.secret_key))) ∧
        inp.sighash_type = some sighashAll) :=
  claim_c4_partial_sig_isolation witBuilder witCrypto witCh witDep witTrc
    10 4 witPrev none none witS witPsbt rfl

theorem sign_single_input_eq_ok {b : TransactionBuilder} {c : Crypto}
    {tx : Transaction} {idx : ℕ} {amt : Amount} {tx2 : Transaction} :
    sign_single_input b c tx idx amt = .ok tx2 ↔
    ∃ txin, tx.input.get? idx = some txin ∧
      tx2 = { tx with
              input := tx.input.set idx { txin with
                witness := [c.derSig ⟨c.sighashP2wpkh tx idx
                    (.p2wpkh (pubkeyOf b.secret_key)) amt,
                    b.secret_key⟩ ++ [sighashAll],
                  c.serializePk (pubkeyOf b.secret_key)] } } := by
  unfold sign_single_input
  cases hg : tx.input.get? idx with
  | none => simp
  | some txin =>
    dsimp only
    constructor
    · intro h
      injection h with h
      exact ⟨txin, rfl, h.symm⟩
    · rintro ⟨txin2, htxin2, h2⟩
      injection htxin2 with htxin2
      rw [h2, htxin2]

theorem sign_inputs_spec (b : TransactionBuilder) (c : Crypto) :
    ∀ (amounts : List Amount) (tx : Transaction) (i : ℕ)
      (tx2 : Transaction),
    sign_inputs b c tx i amounts = .ok tx2 →
    tx2.version = tx.version ∧
    tx2.lock_time = tx.lock_time ∧
    tx2.output = tx.output ∧
    tx2.input.length = tx.input.length ∧
    (∀ j, j < i ∨ i + amounts.length ≤ j →
      tx2.input.get? j = tx.input.get? j) ∧
    (∀ j, i ≤ j → j < i + amounts.length →
      ∃ txin msg, tx.input.get? j = some txin ∧
        tx2.input.get? j = some { txin with
          witness := [c.derSig ⟨msg, b.secret_key⟩ ++ [sighashAll],
            c.serializePk (pubkeyOf b.secret_key)] }) := by
  intro amounts
  induction amounts with
  | nil =>
    intro tx i tx2 h
    unfold sign_inputs at h
    injection h with h
    subst h
    refine ⟨rfl, rfl, rfl, rfl, fun j _ => rfl, fun j hj hj2 => ?_⟩
    simp only [List.length_nil] at hj2
    omega
  | cons amt rest ih =>
    intro tx i tx2 h
    unfold sign_inputs at h
    simp only [bind, Except.bind] at h
    cases h1 : sign_single_input b c tx i amt with
    | error e => rw [h1] at h; cases h
    | ok tx1 =>
      rw [h1] at h
      obtain ⟨txin, htxin, htx1⟩ := sign_single_input_eq_ok.mp h1
      have hbi : i < tx.input.length := by
        by_contra hb
        rw [List.get?_eq_none.mpr (by omega)] at htxin
        cases htxin
      have htx1v : tx1.version = tx.version := by rw [htx1]
      have htx1l : tx1.lock_time = tx.lock_time := by rw [htx1]
      have htx1o : tx1.output = tx.output := by rw [htx1]
      have htx1len : tx1.input.length = tx.input.length := by
        rw [htx1]
        exact List.length_set ..
      have htx1ne : ∀ j, j ≠ i → tx1.input.get? j = tx.input.get? j := by
        intro j hj
        rw [htx1]
        exact List.get?_set_ne _ _ (fun hee => hj hee.symm)
      have htx1eq : tx1.input.get? i = some { txin with
          witness := [c.derSig ⟨c.sighashP2wpkh tx i
              (.p2wpkh (pubkeyOf b.secret_key)) amt,
              b.secret_key⟩ ++ [sighashAll],
            c.serializePk (pubkeyOf b.secret_key)] } := by
        rw [htx1]
        simpa using List.get?_set_eq_of_lt _ hbi
      obtain ⟨hv, hl, ho, hlen, hlow, hhigh⟩ := ih tx1 (i + 1) tx2 h
      refine ⟨hv.trans htx1v, hl.trans htx1l, ho.trans htx1o,
        hlen.trans htx1len, ?_, ?_⟩
      · intro j hj
        simp only [List.length_cons] at hj
        rw [hlow j (by omega)]
        exact htx1ne j (by omega)
      · intro j hj hj2
        simp only [List.length_cons] at hj2
        rcases Nat.eq_or_lt_of_le hj with hje | hjgt
        · refine ⟨txin, c.sighashP2wpkh tx i
            (.p2wpkh (pubkeyOf b.secret_key)) amt, ?_, ?_⟩
          · rw [← hje]
            exact htxin
          · rw [hlow j (by omega), ← hje]
            exact htx1eq
        · obtain ⟨txinj, msg, hj1, hj2e⟩ := hhigh j (by omega) (by omega)
          rw [htx1ne j (by omega)] at hj1
          exact ⟨txinj, msg, hj1, hj2e⟩

theorem create_p2wpkh_script_new (x : SecpPublicKey) :
    create_p2wpkh_script (BPublicKey.new x) = .ok (.p2wpkh x) := rfl

/-- C8: for every successful `build_deposit_transaction` call, the
first output is the P2WPKH script over the point sum of the builder's
public key and the first-rank commitment's public key carrying the
deposit amount, a change output exists exactly when a change amount is
given (to the change key when given, else to the builder's key), the
inputs are exactly the given previous outpoints in order, and every
input carries the witness
`[DER signature ‖ sighash byte, compressed builder public key]`. -/
theorem claim_c8_deposit_transaction (b : TransactionBuilder) (c : Crypto)
    (frc : FirstRankCommitment) (prev : List (OutPoint × Amount))
    (deposit_amount : Amount) (ca : Option Amount)
    (cp : Option BPublicKey) (tx : Transaction)
    (h : build_deposit_transaction b c frc prev deposit_amount ca cp =
      .ok tx) :
    ∃ combined, frc.combine (pubkeyOf b.secret_key) = .ok combined ∧
      tx.output.get? 0 = some (TxOut.mk deposit_amount
        (.p2wpkh combined)) ∧
      (ca = none → tx.output.length = 1) ∧
      (∀ cav, ca = some cav → tx.output.length = 2 ∧
        tx.output.get? 1 = some (TxOut.mk cav (.p2wpkh
          ((cp.getD (BPublicKey.new (pubkeyOf b.secret_key))).inner)))) ∧
      tx.input.map (fun i => i.previous_output) = prev.map Prod.fst ∧
      (∀ j txin, tx.input.get? j = some txin →
        ∃ msg, txin.witness = [c.derSig ⟨msg, b.secret_key⟩ ++
          [sighashAll], c.serializePk (pubkeyOf b.secret_key)]) := by
  unfold build_deposit_transaction at h
  simp only [bind, Except.bind] at h
  dsimp only [BPublicKey.new] at h
  cases hcomb : frc.combine (pubkeyOf (TransactionBuilder.secret_key b))
    with
  | error e =>
    rw [hcomb] at h
    cases h
  | ok combined =>
    rw [hcomb] at h
    dsimp only at h
    have hdsc : create_p2wpkh_script ⟨true, combined⟩ =
        .ok (.p2wpkh combined) := rfl
    rw [hdsc] at h
    dsimp only at h
    refine ⟨combined, rfl, ?_⟩
    have main : ∀ outs : List TxOut,
        sign_transaction b c (create_tx
          (prev.map fun po => defaultTxIn po.1) outs none)
          (prev.map fun po => po.2) = .ok tx →
        tx.output = outs ∧
        tx.input.map (fun i => i.previous_output) = prev.map Prod.fst ∧
        (∀ j txin, tx.input.get? j = some txin →
          ∃ msg, txin.witness = [c.derSig ⟨msg, b.secret_key⟩ ++
            [sighashAll], c.serializePk (pubkeyOf b.secret_key)]) := by
      intro outs hsig
      unfold sign_transaction at hsig
      rw [if_neg (by
        simp only [create_tx, List.length_map]
        omega)] at hsig
      obtain ⟨-, -, ho, hlen, hlow, hhigh⟩ :=
        sign_inputs_spec b c (prev.map fun po => po.2) _ 0 tx hsig
      have hplen : tx.input.length = prev.length := by
        rw [hlen]
        simp [create_tx]
      refine ⟨ho, ?_, ?_⟩
      · apply List.ext_get?_iff.mpr
        intro n
        rw [List.get?_map, List.get?_map]
        by_cases hn : n < prev.length
        · obtain ⟨txin, msg, hget, hget2⟩ := hhigh n (Nat.zero_le n)
            (by simpa using hn)
          rw [hget2]
          simp only [create_tx, List.get?_map] at hget
          cases hp : prev.get? n with
          | none =>
            rw [hp] at hget
            cases hget
          | some po =>
            rw [hp] at hget
            injection hget with hget
            rw [← hget]
            rfl
        · rw [List.get?_eq_none.mpr (by omega),
            List.get?_eq_none.mpr (by omega)]
          rfl
      · intro j txin hj
        have hjlen : j < prev.length := by
          by_contra hb
          rw [List.get?_eq_none.mpr (by omega)] at hj
          cases hj
        obtain ⟨txin0, msg, -, hget2⟩ := hhigh j (Nat.zero_le j)
          (by simpa using hjlen)
        rw [hj] at hget2
        injection hget2 with hget2
        exact ⟨msg, by rw [hget2]⟩
    cases ca with
    | none =>
      dsimp only at h
      obtain ⟨ho, hmap, hwit⟩ := main _ h
      refine ⟨by rw [ho]; rfl, fun _ => by rw [ho]; rfl, ?_, hmap, hwit⟩
      intro cav hcav
      cases hcav
    | some cav =>
      dsimp only at h
      cases hcs : create_p2wpkh_script
          (cp.getD ⟨true, pubkeyOf b.secret_key⟩) with
      | error e =>
        rw [hcs] at h
        cases h
      | ok cscript =>
        rw [hcs] at h
        dsimp only at h
        obtain ⟨ho, hmap, hwit⟩ := main _ h
        have hcseq : cscript = .p2wpkh
            ((cp.getD ⟨true, pubkeyOf b.secret_key⟩).inner) := by
          unfold create_p2wpkh_script at hcs
          split at hcs
          · injection hcs with hcs
            exact hcs.symm
          · cases hcs
        refine ⟨by rw [ho]; rfl, ?_, ?_, hmap, hwit⟩
        · intro hcan
          cases hcan
        · intro cav2 hcav2
          injection hcav2 with hcav2
          subst hcav2
          subst hcseq
          exact ⟨by rw [ho]; rfl, by rw [ho]; rfl⟩

def witFrc : FirstRankCommitment := ⟨1, pubkeyOf 1⟩

/-- The deposit build the C8 witness instantiates. -/
def witDepResult : Except TransactionError Transaction :=
  build_deposit_transaction witBuilder witCrypto witFrc witPrev 4
    (some 2) none

def witDepTx : Transaction :=
  match witDepResult with
  | .ok t => t
  | _ => ⟨0, 0, [], []⟩

theorem claim_c8_witness :
    ∃ combined, witFrc.combine (pubkeyOf witBuilder.secret_key) =
        .ok combined ∧
      witDepTx.output.get? 0 = some (TxOut.mk 4 (.p2wpkh combined)) ∧
      ((some 2 : Option Amount) = none → witDepTx.output.length = 1) ∧
      (∀ cav, (some 2 : Option Amount) = some cav →
        witDepTx.output.length = 2 ∧
        witDepTx.output.get? 1 = some (TxOut.mk cav (.p2wpkh
          (((none : Option BPublicKey).getD
            (BPublicKey.new (pubkeyOf witBuilder.secret_key))).inner)))) ∧
      witDepTx.input.map (fun i => i.previous_output) =
        witPrev.map Prod.fst ∧
      (∀ j txin, witDepTx.input.get? j = some txin →
        ∃ msg, txin.witness = [witCrypto.derSig
          ⟨msg, witBuilder.secret_key⟩ ++ [sighashAll],
          witCrypto.serializePk (pubkeyOf witBuilder.secret_key)]) :=
  claim_c8_deposit_transaction witBuilder witCrypto witFrc witPrev 4
    (some 2) none witDepTx rfl

theorem insertSig_self_mem (l : List (BPublicKey × EcdsaSig))
    (k : BPublicKey) (v : EcdsaSig) : (k, v) ∈ insertSig l k v := by
  unfold insertSig
  split
  · rename_i hany
    rw [List.any_eq_true] at hany
    obtain ⟨e, he, hek⟩ := hany
    rw [List.mem_map]
    refine ⟨e, he, ?_⟩
    rw [if_pos (of_decide_eq_true hek)]
  · exact List.mem_append_right _ (List.mem_singleton.mpr rfl)

/-- C5: `complete_challenge_tx` signs the input at
`deposit_input_index` with the secret key equal to the scalar sum of
the selected first-rank commitment's secret key and the builder's own
secret key, then finalizes the PSBT and extracts the transaction;
whenever extraction of the finalized PSBT fails it returns
`ExtractTransactionFailed` rather than a transaction. -/
theorem claim_c5_complete_challenge_extract (b : TransactionBuilder)
    (c : Crypto) (psbt : Psbt) (deposit_amount : Amount)
    (deposit_input_index : ℕ) (frc : FirstRankCommitment)
    (k : SecpSecretKey) (p1 : Psbt)
    (hk : frc.add_tweak b.secret_key = .ok k)
    (hs : sign_psbt_input b c psbt deposit_input_index deposit_amount
      (some k) = .ok p1) :
    k = (frc.secret_key + b.secret_key) % curveOrder ∧
    (∃ inp es, p1.inputs.get? deposit_input_index = some inp ∧
      es ∈ inp.partial_sigs ∧ es.1 = BPublicKey.new (pubkeyOf k) ∧
      es.2.signature.sk = k ∧ es.2.sighash_type = sighashAll) ∧
    (complete_challenge_tx b c psbt deposit_amount deposit_input_index
        frc =
      match c.finalizePsbt p1 with
      | none => .error .psbtFinalizeFailed
      | some p2 =>
        match c.extractTx p2 with
        | none => .error .extractTransactionFailed
        | some tx2 => .ok tx2) := by
  have hkval : k = (frc.secret_key + b.secret_key) % curveOrder := by
    unfold FirstRankCommitment.add_tweak skAddTweak at hk
    dsimp only at hk
    split at hk
    · cases hk
    · injection hk with hk
      exact hk.symm
  refine ⟨hkval, ?_, ?_⟩
  · obtain ⟨old, hold, hlt, hp1⟩ := sign_psbt_input_eq_ok.mp hs
    have hb : deposit_input_index < psbt.inputs.length := by
      by_contra hb
      rw [List.get?_eq_none.mpr (by omega)] at hold
      cases hold
    refine ⟨signedPsbtInput c psbt.unsigned_tx deposit_input_index
      deposit_amount k old,
      (BPublicKey.new (pubkeyOf k),
        ⟨⟨c.sighashP2wpkh psbt.unsigned_tx deposit_input_index
          (.p2wpkh (pubkeyOf k)) deposit_amount, k⟩, sighashAll⟩),
      ?_, ?_, rfl, rfl, rfl⟩
    · rw [hp1]
      simpa using List.get?_set_eq_of_lt _ hb
    · exact insertSig_self_mem ..
  · unfold complete_challenge_tx
    simp only [bind, Except.bind]
    rw [hk]
    dsimp only
    rw [hs]

def witC5Psbt : Psbt := ⟨⟨1, 0, [defaultTxIn witDep], []⟩, [emptyPsbtInput]⟩

def witC5p1 : Psbt :=
  match sign_psbt_input witBuilder witCrypto witC5Psbt 0 5 (some 3) with
  | .ok p => p
  | _ => witC5Psbt

theorem claim_c5_witness :
    (3 : SecpSecretKey) =
      (witFrc.secret_key + witBuilder.secret_key) % curveOrder ∧
    (∃ inp es, witC5p1.inputs.get? 0 = some inp ∧
      es ∈ inp.partial_sigs ∧ es.1 = BPublicKey.new (pubkeyOf 3) ∧
      es.2.signature.sk = 3 ∧ es.2.sighash_type = sighashAll) ∧
    (complete_challenge_tx witBuilder witCrypto witC5Psbt 5 0 witFrc =
      match witCrypto.finalizePsbt witC5p1 with
      | none => .error .psbtFinalizeFailed
      | some p2 =>
        match witCrypto.extractTx p2 with
        | none => .error .extractTransactionFailed
        | some tx2 => .ok tx2) :=
  claim_c5_complete_challenge_extract witBuilder witCrypto witC5Psbt 5 0
    witFrc 3 witC5p1 rfl rfl

theorem generate_ok_inv {hm : HashModel} {skA skB : SecpSecretKey}
    {cs : Commitments}
    (h : Commitments.generate hm skA skB = .ok cs) :
    ∃ s0 s1, skFromSlice (hm.hashPk (pubkeyOf skA)) = .ok s0 ∧
      skFromSlice (hm.hashPk (pubkeyOf skB)) = .ok s1 ∧
      cs = ⟨⟨skA, pubkeyOf skA⟩, ⟨skB, pubkeyOf skB⟩,
        ⟨pubkeyOf s0⟩, ⟨pubkeyOf s1⟩⟩ := by
  unfold Commitments.generate at h
  simp only [bind, Except.bind] at h
  cases h0 : skFromSlice (hm.hashPk (pubkeyOf skA)) with
  | error e => rw [h0] at h; cases h
  | ok s0 =>
    rw [h0] at h
    dsimp only at h
    cases h1 : skFromSlice (hm.hashPk (pubkeyOf skB)) with
    | error e => rw [h1] at h; cases h
    | ok s1 =>
      rw [h1] at h
      dsimp only at h
      injection h with h
      exact ⟨s0, s1, rfl, rfl, h.symm⟩

theorem combine_negate (chv p : ℕ) (hp : p < curveOrder)
    (hpne : p ≠ 0) :
    combinePk ((chv + p) % curveOrder) (negatePk chv) = .ok p := by
  have hNpos : 0 < curveOrder := by decide
  have hm : chv % curveOrder < curveOrder := Nat.mod_lt _ hNpos
  have hsum : (chv + p) + (curveOrder - chv % curveOrder) =
      p + curveOrder * (chv / curveOrder + 1) := by
    have hdm := Nat.div_add_mod chv curveOrder
    have hmul : curveOrder * (chv / curveOrder + 1) =
        curveOrder * (chv / curveOrder) + curveOrder := by ring
    omega
  have hE : ((chv + p) % curveOrder +
      (curveOrder - chv % curveOrder) % curveOrder) % curveOrder = p := by
    rw [← Nat.add_mod, hsum, Nat.add_mul_mod_self_left]
    exact Nat.mod_eq_of_lt hp
  unfold combinePk negatePk
  dsimp only
  rw [hE, if_neg hpne]

/-- C6: given a challenge transaction whose first input's witness holds
at stack position 1 the public key `challengerPubkey + firstRankPubkey`,
`sweep_challenge_output_acceptor` recovers, by negating
`challengerPubkey`, combining and hashing, exactly the second-rank
secret scalar that `Commitments::generate` derived for the matching
first-rank commitment (the scalar whose public key is the stored
third-rank commitment), and signs with the Acceptor's secret key
tweak-added by that scalar. -/
theorem claim_c6_sweep_secret_recovery (b : TransactionBuilder)
    (c : Crypto) (skA skB : SecpSecretKey) (cs : Commitments) (i : Fin 2)
    (ctx : Transaction) (chpk : BPublicKey) (ws : Script)
    (recipient : Option BPublicKey) (fee : Amount) (out0 : TxOut)
    (i0 : TxIn) (w1 : List ℕ) (wpk : BPublicKey) (s2 : SecpSecretKey)
    (hgen : Commitments.generate c.toHashModel skA skB = .ok cs)
    (hA : skA % curveOrder ≠ 0) (hB : skB % curveOrder ≠ 0)
    (hout : ctx.output.get? 0 = some out0)
    (hfee : fee ≤ out0.value)
    (hrec : ∀ r ∈ recipient, r.compressed = true)
    (hin : ctx.input.get? 0 = some i0)
    (hw1 : i0.witness.get? 1 = some w1)
    (hparse : c.parsePk w1 = some wpk)
    (hcombine : combinePk chpk.inner ((cs.firstRank i).public_key) =
      .ok wpk.inner)
    (hs2 : skFromSlice (c.hashPk ((cs.firstRank i).public_key)) =
      .ok s2)
    (htweak : (b.secret_key + s2) % curveOrder ≠ 0) :
    (cs.thirdRank i).public_key = pubkeyOf s2 ∧
    ∃ tx msg, sweep_challenge_output_acceptor b c ctx chpk ws recipient
        fee = .ok tx ∧
      tx.input.map TxIn.witness = [[c.derSig
        ⟨msg, (b.secret_key + s2) % curveOrder⟩ ++ [sighashAll], [1],
        c.serializeScript ws]] := by
  obtain ⟨s0, s1, h0, h1, hcs⟩ := generate_ok_inv hgen
  -- The selected first-rank public key, and its derived second-rank
  -- scalar recorded in the third rank.
  have hfrc : (cs.firstRank i).public_key = pubkeyOf (if i = 0 then skA
      else skB) := by
    subst hcs
    fin_cases i <;> rfl
  have hfrcne : (cs.firstRank i).public_key ≠ 0 := by
    rw [hfrc]
    split <;> assumption
  have hfrclt : (cs.firstRank i).public_key < curveOrder := by
    rw [hfrc]
    exact Nat.mod_lt _ (by decide)
  have hthird : (cs.thirdRank i).public_key = pubkeyOf s2 := by
    subst hcs
    fin_cases i
    · dsimp only [Commitments.firstRank] at hs2
      rw [h0] at hs2
      injection hs2 with hs2
      rw [hs2]
      rfl
    · dsimp only [Commitments.firstRank] at hs2
      rw [h1] at hs2
      injection hs2 with hs2
      rw [hs2]
      rfl
  refine ⟨hthird, ?_⟩
  -- Evaluate the sweep.
  have hwpk : wpk.inner =
      (chpk.inner + (cs.firstRank i).public_key) % curveOrder := by
    unfold combinePk at hcombine
    dsimp only at hcombine
    split at hcombine
    · cases hcombine
    · injection hcombine with hcombine
      exact hcombine.symm
  have hwnz : (chpk.inner + (cs.firstRank i).public_key) % curveOrder ≠
      0 := by
    unfold combinePk at hcombine
    dsimp only at hcombine
    split at hcombine
    · cases hcombine
    · assumption
  have hcn : combinePk wpk.inner (negatePk chpk.inner) =
      .ok ((cs.firstRank i).public_key) := by
    rw [hwpk]
    exact combine_negate chpk.inner _ hfrclt hfrcne
  have hscript : create_p2wpkh_script (recipient.getD
      (BPublicKey.new (pubkeyOf b.secret_key))) =
      .ok (.p2wpkh ((recipient.getD
        (BPublicKey.new (pubkeyOf b.secret_key))).inner)) := by
    cases recipient with
    | none => rfl
    | some r =>
      have hgd : (some r).getD (BPublicKey.new (pubkeyOf b.secret_key)) =
          r := rfl
      rw [hgd]
      simp [create_p2wpkh_script, hrec r rfl]
  have htw : skAddTweak b.secret_key s2 =
      .ok ((b.secret_key + s2) % curveOrder) := by
    unfold skAddTweak
    dsimp only
    rw [if_neg htweak]
  unfold sweep_challenge_output_acceptor
  rw [hout]
  dsimp only
  rw [if_pos hfee, hscript]
  dsimp only
  rw [hin]
  dsimp only
  rw [hw1]
  dsimp only
  rw [hparse]
  dsimp only
  rw [hcn]
  dsimp only
  rw [hs2]
  dsimp only
  rw [htw]
  dsimp only
  refine ⟨_, _, rfl, rfl⟩

/-- Oracle for the C6 witness: parsing the witness item yields the
combined key 5 + 1 = 6. -/
def witC6Crypto : Crypto :=
  { witCrypto with parsePk := fun _ => some ⟨true, 6⟩ }

def witC6Ctx : Transaction :=
  ⟨1, 0, [⟨⟨3, 0⟩, sequenceFinal, [[0], [0]]⟩], [⟨10, .p2wpkh 0⟩]⟩

theorem claim_c6_witness :
    (witCs.thirdRank 0).public_key = pubkeyOf 1 ∧
    ∃ tx msg, sweep_challenge_output_acceptor witBuilder witC6Crypto
        witC6Ctx witCh (.raw []) none 3 = .ok tx ∧
      tx.input.map TxIn.witness = [[witC6Crypto.derSig
        ⟨msg, (witBuilder.secret_key + 1) % curveOrder⟩ ++ [sighashAll],
        [1], witC6Crypto.serializeScript (.raw [])]] :=
  claim_c6_sweep_secret_recovery witBuilder witC6Crypto 1 2 witCs 0
    witC6Ctx witCh (.raw []) none 3 ⟨10, .p2wpkh 0⟩
    ⟨⟨3, 0⟩, sequenceFinal, [[0], [0]]⟩ [0] ⟨true, 6⟩ 1 rfl (by decide)
    (by decide) rfl (by decide) (by intro r hr; simp at hr) rfl rfl rfl
    rfl rfl (by decide)

theorem sign_p2wsh_challenger_singleton (b : TransactionBuilder)
    (c : Crypto) (txin : TxIn) (outs : List TxOut) (lt amt : ℕ)
    (ws : Script) :
    sign_p2wsh_input_challenger b c ⟨1, lt, [txin], outs⟩ 0 amt ws =
      .ok ⟨1, lt, [{ txin with
        witness := [c.derSig ⟨c.sighashP2wsh ⟨1, lt, [txin], outs⟩ 0 ws
          amt, b.secret_key⟩ ++ [sighashAll], [],
          c.serializeScript ws] }], outs⟩ := rfl

/-- C7: every transaction returned successfully by
`sweep_challenge_output_challenger` with lock time `N` has its locktime
field equal to `N`, a single input whose sequence enables locktime
checking (`ENABLE_LOCKTIME_NO_RBF`, not the final sequence), and a
witness stack of exactly
`[DER signature ‖ sighash byte, empty item, serialized witness
script]`. -/
theorem claim_c7_challenger_sweep_locktime (b : TransactionBuilder)
    (c : Crypto) (ctx : Transaction) (ws : Script) (lt : ℕ)
    (recipient : Option BPublicKey) (fee : Amount) (tx : Transaction)
    (h : sweep_challenge_output_challenger b c ctx ws lt recipient fee =
      .ok tx) :
    tx.lock_time = lt ∧
    SequenceEnablesLockTime sequenceEnableLocktimeNoRbf ∧
    ∃ msg, tx.input = [⟨⟨c.txid ctx, 0⟩, sequenceEnableLocktimeNoRbf,
      [c.derSig ⟨msg, b.secret_key⟩ ++ [sighashAll], [],
        c.serializeScript ws]⟩] := by
  unfold sweep_challenge_output_challenger at h
  cases hout : ctx.output.get? 0 with
  | none => rw [hout] at h; cases h
  | some out0 =>
    rw [hout] at h
    dsimp only at h
    by_cases hfee : fee ≤ out0.value
    · rw [if_pos hfee] at h
      cases hscript : create_p2wpkh_script (recipient.getD
          (BPublicKey.new (pubkeyOf b.secret_key))) with
      | error e => rw [hscript] at h; cases h
      | ok rscript =>
        rw [hscript] at h
        dsimp only at h
        rw [show create_tx [TxIn.mk (OutPoint.mk (c.txid ctx) 0)
            sequenceEnableLocktimeNoRbf []] [TxOut.mk (out0.value - fee)
            rscript] (some lt) = ⟨1, lt, [TxIn.mk
            (OutPoint.mk (c.txid ctx) 0) sequenceEnableLocktimeNoRbf []]
            , [TxOut.mk (out0.value - fee) rscript]⟩ from rfl,
          sign_p2wsh_challenger_singleton] at h
        injection h with h
        subst h
        exact ⟨rfl, by show sequenceEnableLocktimeNoRbf ≠ sequenceFinal; decide, _, rfl⟩
    · rw [if_neg hfee] at h
      cases h

/-- The successful challenger sweep the C7 witness instantiates. -/
def witC7Result : PResult Transaction :=
  sweep_challenge_output_challenger witBuilder witCrypto witC6Ctx
    (.raw []) 77 none 3

def witC7Tx : Transaction :=
  match witC7Result with
  | .ok t => t
  | _ => ⟨0, 0, [], []⟩

theorem claim_c7_witness :
    witC7Tx.lock_time = 77 ∧
    SequenceEnablesLockTime sequenceEnableLocktimeNoRbf ∧
    ∃ msg, witC7Tx.input = [⟨⟨witCrypto.txid witC6Ctx, 0⟩,
      sequenceEnableLocktimeNoRbf,
      [witCrypto.derSig ⟨msg, witBuilder.secret_key⟩ ++ [sighashAll], [],
        witCrypto.serializeScript (.raw [])]⟩] :=
  claim_c7_challenger_sweep_locktime witBuilder witCrypto witC6Ctx
    (.raw []) 77 none 3 witC7Tx rfl

/-- C10: `sweep_challenge_output_acceptor` and
`sweep_challenge_output_challenger` are partial at the public
interface: an empty output list, a first-input witness stack with fewer
than two items (acceptor case, reached with a well-formed recipient
key), or a first output worth less than the fee makes them panic
(index out of bounds or checked `Amount` subtraction overflow) instead
of returning a `TransactionError`. -/
theorem claim_c10_sweep_panics (b : TransactionBuilder) (c : Crypto)
    (ctx : Transaction) (chpk : BPublicKey) (ws : Script)
    (recipient : Option BPublicKey) (fee : Amount) (lt : ℕ) :
    (ctx.output = [] →
      sweep_challenge_output_acceptor b c ctx chpk ws recipient fee =
        .panic ∧
      sweep_challenge_output_challenger b c ctx ws lt recipient fee =
        .panic) ∧
    (∀ out0, ctx.output.get? 0 = some out0 → out0.value < fee →
      sweep_challenge_output_acceptor b c ctx chpk ws recipient fee =
        .panic ∧
      sweep_challenge_output_challenger b c ctx ws lt recipient fee =
        .panic) ∧
    (∀ out0 i0, ctx.output.get? 0 = some out0 → fee ≤ out0.value →
      (∀ r ∈ recipient, r.compressed = true) →
      ctx.input.get? 0 = some i0 → i0.witness.length < 2 →
      sweep_challenge_output_acceptor b c ctx chpk ws recipient fee =
        .panic) := by
  refine ⟨?_, ?_, ?_⟩
  · intro hempty
    have hnone : ctx.output.get? 0 = none := by
      rw [hempty]
      rfl
    constructor
    · unfold sweep_challenge_output_acceptor
      rw [hnone]
    · unfold sweep_challenge_output_challenger
      rw [hnone]
  · intro out0 hout hlt
    constructor
    · unfold sweep_challenge_output_acceptor
      rw [hout]
      dsimp only
      rw [if_neg (not_le.mpr hlt)]
    · unfold sweep_challenge_output_challenger
      rw [hout]
      dsimp only
      rw [if_neg (not_le.mpr hlt)]
  · intro out0 i0 hout hfee hrec hin hwit
    have hscript : create_p2wpkh_script (recipient.getD
        (BPublicKey.new (pubkeyOf b.secret_key))) =
        .ok (.p2wpkh ((recipient.getD
          (BPublicKey.new (pubkeyOf b.secret_key))).inner)) := by
      cases recipient with
      | none => rfl
      | some r =>
        have hgd : (some r).getD
            (BPublicKey.new (pubkeyOf b.secret_key)) = r := rfl
        rw [hgd]
        simp [create_p2wpkh_script, hrec r rfl]
    unfold sweep_challenge_output_acceptor
    rw [hout]
    dsimp only
    rw [if_pos hfee, hscript]
    dsimp only
    rw [hin]
    dsimp only
    rw [List.get?_eq_none.mpr (by omega)]

def witC10Empty : Transaction := ⟨1, 0, [], []⟩

def witC10Low : Transaction := ⟨1, 0, [], [⟨1, .p2wpkh 0⟩]⟩

def witC10Short : Transaction :=
  ⟨1, 0, [⟨⟨0, 0⟩, sequenceFinal, [[0]]⟩], [⟨10, .p2wpkh 0⟩]⟩

theorem claim_c10_witness :
    (sweep_challenge_output_acceptor witBuilder witCrypto witC10Empty
       witCh (.raw []) none 5 = .panic ∧
     sweep_challenge_output_challenger witBuilder witCrypto witC10Empty
       (.raw []) 9 none 5 = .panic) ∧
    (sweep_challenge_output_acceptor witBuilder witCrypto witC10Low
       witCh (.raw []) none 5 = .panic ∧
     sweep_challenge_output_challenger witBuilder witCrypto witC10Low
       (.raw []) 9 none 5 = .panic) ∧
    sweep_challenge_output_acceptor witBuilder witCrypto witC10Short
      witCh (.raw []) none 5 = .panic :=
  ⟨(claim_c10_sweep_panics witBuilder witCrypto witC10Empty witCh
      (.raw []) none 5 9).1 rfl,
   (claim_c10_sweep_panics witBuilder witCrypto witC10Low witCh
      (.raw []) none 5 9).2.1 ⟨1, .p2wpkh 0⟩ rfl (by decide),
   (claim_c10_sweep_panics witBuilder witCrypto witC10Short witCh
      (.raw []) none 5 9).2.2 ⟨10, .p2wpkh 0⟩
      ⟨⟨0, 0⟩, sequenceFinal, [[0]]⟩ rfl (by decide)
      (by intro r hr; simp at hr) rfl (by decide)⟩

/-- C9: for all valid secret keys whose scalar sum is a valid secret
key, combining the two public keys by elliptic-curve point addition
(`FirstRankCommitment::combine` / `ThirdRankCommitment::combine`)
yields exactly the public key of the tweak-added secret key
(`FirstRankCommitment::add_tweak`). -/
theorem claim_c9_key_combination_round_trip (sk1 sk2 : SecpSecretKey)
    (h1 : ValidSecretKey sk1) (h2 : ValidSecretKey sk2)
    (hsum : (sk1 + sk2) % curveOrder ≠ 0) :
    ∃ k, FirstRankCommitment.add_tweak ⟨sk1, pubkeyOf sk1⟩ sk2 =
        .ok k ∧
      FirstRankCommitment.combine ⟨sk1, pubkeyOf sk1⟩ (pubkeyOf sk2) =
        .ok (pubkeyOf k) ∧
      ThirdRankCommitment.combine ⟨pubkeyOf sk1⟩ (pubkeyOf sk2) =
        .ok (pubkeyOf k) := by
  have hmod : (pubkeyOf sk1 + pubkeyOf sk2) % curveOrder =
      (sk1 + sk2) % curveOrder := by
    unfold pubkeyOf
    rw [← Nat.add_mod]
  have hpk : pubkeyOf ((sk1 + sk2) % curveOrder) =
      (sk1 + sk2) % curveOrder := by
    unfold pubkeyOf
    exact Nat.mod_mod_of_dvd _ dvd_rfl
  refine ⟨(sk1 + sk2) % curveOrder, ?_, ?_, ?_⟩
  · unfold FirstRankCommitment.add_tweak skAddTweak
    dsimp only
    rw [if_neg hsum]
  · unfold FirstRankCommitment.combine combinePk
    dsimp only
    rw [hmod, if_neg hsum, hpk]
  · unfold ThirdRankCommitment.combine combinePk
    dsimp only
    rw [hmod, if_neg hsum, hpk]

theorem claim_c9_witness :
    ∃ k, FirstRankCommitment.add_tweak ⟨1, pubkeyOf 1⟩ 2 = .ok k ∧
      FirstRankCommitment.combine ⟨1, pubkeyOf 1⟩ (pubkeyOf 2) =
        .ok (pubkeyOf k) ∧
      ThirdRankCommitment.combine ⟨pubkeyOf 1⟩ (pubkeyOf 2) =
        .ok (pubkeyOf k) :=
  claim_c9_key_combination_round_trip 1 2 (by decide) (by decide)
    (by decide)

end OpRand
